import Mathlib

/-!
Verification of the botanic decision-tree engine against its specification.

The development shallowly embeds the Go sources:
* float64 values (no NaN arises in the modelled code paths) are embedded as
  the type F of rationals extended with both infinities; finite floats are
  idealized as exact rationals;
* Go interface values held by samples (nil, string, float64) become
  Option Value with Value a sum of strings and rationals;
* fallible Go functions returning (T, error) become Except String T;
* maps become association lists with the same lookup semantics.
-/

namespace Botanic

/-- Embedding of float64 (ignoring NaN): a rational or an infinity of either
sign. -/
inductive F where
  | negInf : F
  | fin : ℚ → F
  | posInf : F
deriving DecidableEq, Repr

/-- Go math.IsInf(x, 0): true for an infinity of either sign. -/
def F.isInf : F → Bool
  | .negInf => true
  | .posInf => true
  | .fin _ => false

/-- IEEE comparison x <= y on non-NaN floats. -/
def F.le : F → F → Bool
  | .negInf, _ => true
  | _, .posInf => true
  | .posInf, _ => false
  | .fin q, .fin r => q ≤ r
  | .fin _, .negInf => false

/-- IEEE comparison x < y on non-NaN floats. -/
def F.lt : F → F → Bool
  | _, .negInf => false
  | .negInf, _ => true
  | .posInf, _ => false
  | .fin q, .fin r => q < r
  | .fin _, .posInf => true

/-- A non-nil Go interface value carried by a sample: a string or a float64. -/
inductive Value where
  | str : String → Value
  | num : ℚ → Value
deriving DecidableEq, Repr

/-- feature.Feature: a discrete feature with its ordered available values, or
a continuous feature. -/
inductive Feature where
  | discrete : String → List String → Feature
  | continuous : String → Feature
deriving DecidableEq, Repr

/-- Feature.Name(). -/
def Feature.name : Feature → String
  | .discrete n _ => n
  | .continuous n => n

/-- DiscreteFeature.AvailableValues() (empty for continuous features). -/
def Feature.availableValues : Feature → List String
  | .discrete _ vs => vs
  | .continuous _ => []

/-- feature.Criterion: the three variants continuousCriterion,
discreteCriterion and undefinedCriterion, each holding its feature. -/
inductive Criterion where
  | continuous : Feature → F → F → Criterion
  | discrete : Feature → String → Criterion
  | undefined : Feature → Criterion
deriving DecidableEq, Repr

/-- Criterion.Feature(). -/
def Criterion.feature : Criterion → Feature
  | .continuous f _ _ => f
  | .discrete f _ => f
  | .undefined f => f

/-- The Go type assertion to feature.UndefinedCriterion. -/
def Criterion.isUndefined : Criterion → Bool
  | .undefined _ => true
  | _ => false

/-- feature.Sample: ValueFor returns a value (nil modelled as none) or an
error. -/
structure Sample where
  valueFor : Feature → Except String (Option Value)

/-- Criterion.SatisfiedBy, translated clause by clause from the Go methods of
continuousCriterion, discreteCriterion and undefinedCriterion. The continuous
case tests math.IsInf(bound, 0), i.e. an infinity of either sign opens the
bound; a nil value or a failed type assertion yields false. -/
def Criterion.satisfiedBy : Criterion → Sample → Except String Bool
  | .continuous f a b, s =>
    match s.valueFor f with
    | .error e => .error e
    | .ok none => .ok false
    | .ok (some (.str _)) => .ok false
    | .ok (some (.num x)) =>
        .ok ((a.isInf || a.le (.fin x)) && (b.isInf || F.lt (.fin x) b))
  | .discrete f v, s =>
    match s.valueFor f with
    | .error e => .error e
    | .ok none => .ok false
    | .ok (some (.num _)) => .ok false
    | .ok (some (.str sv)) => .ok (v == sv)
  | .undefined _, _ => .ok true

/-- The satisfaction predicate exactly as the specification words it:
(a = −∞ ∨ a ≤ x) ∧ (b = +∞ ∨ x < b). -/
def specIntervalSatisfied (a b : F) (x : ℚ) : Bool :=
  ((a == F.negInf) || a.le (.fin x)) && ((b == F.posInf) || F.lt (.fin x) b)

/-- tree.Prediction: a probability for each label value (Go map rendered as
an association list) and the weight of the training data behind it. -/
structure Prediction where
  probabilities : List (String × ℚ)
  weight : Int
deriving DecidableEq, Repr

/-- tree.Node. Optional fields are nil-able Go pointers/interfaces. -/
structure Node where
  id : String := ""
  parentID : String := ""
  subtreeIDs : List String := []
  prediction : Option Prediction := none
  featureCriterion : Option Criterion := none
  subtreeFeature : Option Feature := none
deriving DecidableEq, Repr

/-- Lookup in a node store held as an association list; the most recent
binding for an id shadows older ones, matching Go map assignment. -/
def storeGet (st : List (String × Node)) (id : String) : Option Node :=
  (st.find? (fun p => p.1 == id)).map (fun p => p.2)

/-- tree.Tree: a node store, the root node id and the label feature. -/
structure Tree where
  store : List (String × Node)
  rootID : String
  label : Feature

/-- NodeStore.Get on the tree's store (the in-memory store returns nil,
modelled none, for a missing id and never errors). -/
def Tree.get (t : Tree) (id : String) : Option Node := storeGet t.store id

/-- The message of tree.ErrCannotPredictFromSample. -/
def errCannotPredictFromSample : String :=
  "no prediction available for this kind of sample"

/-- The child-selection loop inside Tree.Predict: walk the subtree ids in
order keeping a selected node; a satisfied criterion selects its node, and
unless that criterion is an UndefinedCriterion the loop breaks at once. -/
def Tree.selectNode (t : Tree) (s : Sample) :
    List String → Option Node → Except String (Option Node)
  | [], sel => .ok sel
  | nID :: rest, sel =>
    match t.get nID with
    | none => .error ("predicting sample: node " ++ nID ++ " not found")
    | some sub =>
      match sub.featureCriterion with
      | none => t.selectNode s rest sel
      | some c =>
        match c.satisfiedBy s with
        | .error e => .error e
        | .ok ok =>
          if ok then
            if c.isUndefined then t.selectNode s rest (some sub)
            else .ok (some sub)
          else t.selectNode s rest sel

/-- The descent loop of Tree.Predict, fuel-indexed (none = out of fuel,
modelling nontermination on a cyclic store). At a leaf the node's Prediction
is returned, or ErrCannotPredictFromSample when it is nil. -/
def Tree.predictLoop (t : Tree) (s : Sample) :
    Nat → Node → Option (Except String Prediction)
  | 0, _ => none
  | fuel + 1, n =>
    match n.subtreeFeature with
    | none =>
      some (match n.prediction with
        | some p => .ok p
        | none => .error errCannotPredictFromSample)
    | some f =>
      match t.selectNode s n.subtreeIDs none with
      | .error e => some (.error e)
      | .ok none =>
        some (.error
          ("sample does not satisfy any subtree criteria on feature " ++ f.name))
      | .ok (some sel) => t.predictLoop s fuel sel

/-- Tree.Predict: load the root node and descend. -/
def Tree.predict (t : Tree) (s : Sample) (fuel : Nat) :
    Option (Except String Prediction) :=
  match t.get t.rootID with
  | none =>
    some (.error ("predicting sample: root node " ++ t.rootID ++ " not found"))
  | some n => t.predictLoop s fuel n

/-- Specification-side selection, pass 1: the first child in subtree_ids
order whose criterion is a discrete-equality or numeric-interval criterion
satisfied by the sample (store and satisfaction errors surface where the scan
meets them). -/
def Tree.firstSpecificMatch (t : Tree) (s : Sample) :
    List String → Except String (Option Node)
  | [] => .ok none
  | nID :: rest =>
    match t.get nID with
    | none => .error ("predicting sample: node " ++ nID ++ " not found")
    | some sub =>
      match sub.featureCriterion with
      | none => t.firstSpecificMatch s rest
      | some c =>
        match c.satisfiedBy s with
        | .error e => .error e
        | .ok ok =>
          if ok && !c.isUndefined then .ok (some sub)
          else t.firstSpecificMatch s rest

/-- Specification-side selection, pass 2: the child carrying an undefined
criterion chosen as fallback (the last one, as the code's loop keeps
overwriting its selection). -/
def Tree.lastUndefinedChild (t : Tree) : List String → Option Node
  | [] => none
  | nID :: rest =>
    match t.lastUndefinedChild rest with
    | some sub => some sub
    | none =>
      match t.get nID with
      | none => none
      | some sub =>
        match sub.featureCriterion with
        | some c => if c.isUndefined then some sub else none
        | none => none

/-- The descent of Predict exactly as the specification describes it: first
specific satisfied child wins; otherwise a child with an undefined criterion;
otherwise the descriptive error; at a leaf the Prediction or
ErrCannotPredictFromSample. -/
def Tree.predictSpecLoop (t : Tree) (s : Sample) :
    Nat → Node → Option (Except String Prediction)
  | 0, _ => none
  | fuel + 1, n =>
    match n.subtreeFeature with
    | none =>
      some (match n.prediction with
        | some p => .ok p
        | none => .error errCannotPredictFromSample)
    | some f =>
      match t.firstSpecificMatch s n.subtreeIDs with
      | .error e => some (.error e)
      | .ok (some sel) => t.predictSpecLoop s fuel sel
      | .ok none =>
        match t.lastUndefinedChild n.subtreeIDs with
        | some sel => t.predictSpecLoop s fuel sel
        | none =>
          some (.error
            ("sample does not satisfy any subtree criteria on feature " ++
              f.name))

/-- Specification-side Predict. -/
def Tree.predictSpec (t : Tree) (s : Sample) (fuel : Nat) :
    Option (Except String Prediction) :=
  match t.get t.rootID with
  | none =>
    some (.error ("predicting sample: root node " ++ t.rootID ++ " not found"))
  | some n => t.predictSpecLoop s fuel n

/-- A sample of the in-memory datasets: a total assignment of an optional
value to each feature (dataset.Sample whose ValueFor never errors). -/
def TSample := Feature → Option Value

/-- View a total sample through the general Sample interface. -/
def TSample.toSample (sm : TSample) : Sample := ⟨fun f => .ok (sm f)⟩

/-- Criterion.SatisfiedBy specialized to total samples (same clauses as
Criterion.satisfiedBy; the bridge lemma below proves the agreement). -/
def Criterion.sat : Criterion → TSample → Bool
  | .continuous f a b, sm =>
    match sm f with
    | some (.num x) => (a.isInf || a.le (.fin x)) && (b.isInf || F.lt (.fin x) b)
    | _ => false
  | .discrete f v, sm =>
    match sm f with
    | some (.str sv) => v == sv
    | _ => false
  | .undefined _, _ => true

/-- dataset.memoryIntensiveSubsettingDataset: the filtered sample list plus
the accumulated criteria chain (the memoized entropy pointer is a cache and
is not part of the value semantics). -/
structure Dataset where
  samples : List TSample
  criteria : List Criterion := []

/-- Dataset.Count. -/
def Dataset.count (d : Dataset) : Nat := d.samples.length

/-- Dataset.SubsetWith: keep the samples satisfying the criterion and
prepend it to the criteria chain. -/
def Dataset.subsetWith (d : Dataset) (c : Criterion) : Dataset :=
  ⟨d.samples.filter (fun sm => c.sat sm), c :: d.criteria⟩

/-- First-occurrence deduplication with a seen accumulator, as the Go
FeatureValues loop does with its encountered map. Go keys that map by the
value's fmt rendering, which on this idealized value domain is injective on
each variant (cross-variant rendering collisions such as the string "5"
against the number 5 are not modelled), so value equality is used. -/
def dedupFirst {α : Type} [DecidableEq α] (seen : List α) : List α → List α
  | [] => []
  | a :: rest =>
    if a ∈ seen then dedupFirst seen rest else a :: dedupFirst (a :: seen) rest

/-- Dataset.FeatureValues: the distinct values (nil included, as a value of
its own) for the feature over the samples, in first-encounter order. -/
def Dataset.featureValues (d : Dataset) (f : Feature) : List (Option Value) :=
  dedupFirst [] (d.samples.map (fun sm => sm f))

/-- The non-nil values observed for a feature, in sample order (the values
the Entropy loop counts). -/
def Dataset.observedValues (d : Dataset) (f : Feature) : List Value :=
  (d.samples.map (fun sm => sm f)).filterMap id

/-- The Shannon entropy (natural log) of the multiset of values in a list:
Dataset.Entropy accumulates -p*log p over the per-distinct-value relative
frequencies (an empty list gives 0, as the Go loop over an empty count map
does). -/
noncomputable def entropyOfList (l : List Value) : ℝ :=
  ∑ v ∈ l.toFinset, Real.negMulLog ((l.count v : ℝ) / (l.length : ℝ))

/-- Dataset.Entropy: Shannon entropy of the feature's observed values;
samples with a nil value are excluded from both numerator and denominator. -/
noncomputable def Dataset.entropy (d : Dataset) (f : Feature) : ℝ :=
  entropyOfList (d.observedValues f)

/-- queue.Task: a node to develop, the dataset of training data reaching it
and the features still available for splitting. -/
structure Task where
  node : Node
  dataset : Dataset
  availableFeatures : List Feature := []

/-- botanic.Partition: the splitter feature, one task per branch and the
information gain. -/
structure Partition where
  feature : Feature
  tasks : List Task
  informationGain : ℝ

/-- botanic.Pruner: Prune returns true to prune a candidate partition (its
error return arises only from dataset query errors, which total samples never
produce). -/
def Pruner := Dataset → Partition → Feature → Bool

/-- The branch the specification describes for a discrete value v: criterion
DiscreteEquality(F, v) and the subset of S satisfying it. -/
def discreteBranch (s : Dataset) (f : Feature) (v : String) : Task :=
  { node := { featureCriterion := some (Criterion.discrete f v) },
    dataset := s.subsetWith (Criterion.discrete f v) }

/-- The fallback branch the specification describes: criterion Undefined(F)
over the full parent dataset. -/
def undefinedBranch (s : Dataset) (f : Feature) : Task :=
  { node := { featureCriterion := some (Criterion.undefined f) }, dataset := s }

/-- One weighted-entropy summand |Sv|/|S| * H(Sv|label) of the information
gain. -/
noncomputable def weightedEntropyTerm (s : Dataset) (label : Feature)
    (sub : Dataset) : ℝ :=
  sub.entropy label * (sub.count : ℝ) / (s.count : ℝ)

/-- The discrete partition before pruning, as the specification describes it:
one branch per available value in order, and information gain
H(S) - sum of the weighted branch entropies. -/
noncomputable def discreteBasePartition (s : Dataset) (name : String)
    (vals : List String) (label : Feature) : Partition :=
  ⟨Feature.discrete name vals,
    vals.map (discreteBranch s (Feature.discrete name vals)),
    s.entropy label - (vals.map fun v => weightedEntropyTerm s label
      (s.subsetWith (Criterion.discrete (Feature.discrete name vals) v))).sum⟩

/-- botanic.NewDiscretePartition: accumulate one task and one
weighted-entropy subtraction per available value, prune the result, and on
survival append the Undefined(F) task over the parent dataset. -/
noncomputable def newDiscretePartition (s : Dataset) (name : String)
    (vals : List String) (label : Feature) (p : Pruner) : Option Partition :=
  let f := Feature.discrete name vals
  let totalCount : ℝ := (s.count : ℝ)
  let r := vals.foldl
    (fun (acc : List Task × ℝ) v =>
      let c := Criterion.discrete f v
      let ns := s.subsetWith c
      (acc.1 ++ [{ node := { featureCriterion := some c }, dataset := ns }],
        acc.2 - ns.entropy label * (ns.count : ℝ) / totalCount))
    ([], s.entropy label)
  let result : Partition := ⟨f, r.1, r.2⟩
  if p s result label then none
  else
    some ⟨f,
      r.1 ++
        [{ node := { featureCriterion := some (Criterion.undefined f) },
           dataset := s }],
      r.2⟩

/-- Whether an optional sample value is a number. -/
def isNumValue : Option Value → Bool
  | some (.num _) => true
  | _ => false

/-- The Go conversion vf, _ := v.(float64) used by newRangePartition: a
failed type assertion (nil or string value) silently yields the zero value. -/
def goFloat : Option Value → ℚ
  | some (.num q) => q
  | _ => 0

/-- The two-way candidate partition of the range a-b the specification
describes for the adjacent pair (x, y): threshold t = (x+y)/2, branches
with the half-open criteria a <= . < t and t <= . < b over the matching
subsets, and information gain e minus the weighted branch entropies. -/
noncomputable def rangeCandidate (s : Dataset) (f label : Feature) (e : ℝ)
    (a b : F) (x y : ℚ) : Partition :=
  let t := (x + y) / 2
  let lo := s.subsetWith (Criterion.continuous f a (.fin t))
  let hi := s.subsetWith (Criterion.continuous f (.fin t) b)
  ⟨f, [{ node := { featureCriterion := some (Criterion.continuous f a (.fin t)) },
         dataset := lo },
       { node := { featureCriterion := some (Criterion.continuous f (.fin t) b) },
         dataset := hi }],
    e - weightedEntropyTerm s label lo - weightedEntropyTerm s label hi⟩

open Classical in
/-- botanic.newRangePartition: convert the distinct feature values to floats
(goFloat), require at least two, sort ascending, and over each adjacent pair
build the two-way partition at the midpoint threshold, keeping the first
candidate of maximum information gain. -/
noncomputable def newRangePartition (s : Dataset) (f label : Feature) (e : ℝ)
    (a b : F) : Option Partition :=
  let floatValues := (s.featureValues f).map goFloat
  if floatValues.length < 2 then none
  else
    let sorted := List.insertionSort (fun x y : ℚ => x ≤ y) floatValues
    (sorted.zip sorted.tail).foldl
      (fun result pr =>
        let threshold := (pr.1 + pr.2) / 2
        let c₁ := Criterion.continuous f a (.fin threshold)
        let ns₁ := s.subsetWith c₁
        let t₁ : Task := { node := { featureCriterion := some c₁ }, dataset := ns₁ }
        let c₂ := Criterion.continuous f (.fin threshold) b
        let ns₂ := s.subsetWith c₂
        let t₂ : Task := { node := { featureCriterion := some c₂ }, dataset := ns₂ }
        let tasks := [t₁, t₂]
        let totalCount : ℝ := (s.count : ℝ)
        let ig := tasks.foldl
          (fun g task =>
            g - task.dataset.entropy label * (task.dataset.count : ℝ) / totalCount)
          e
        match result with
        | none => some ⟨f, tasks, ig⟩
        | some r =>
          if r.informationGain < ig then some ⟨f, tasks, ig⟩ else result)
      none

/-- The candidate partitions of the best-threshold search, one per adjacent
pair of the ascending sorted collected values. -/
noncomputable def rangeCandidates (s : Dataset) (f label : Feature) (e : ℝ)
    (a b : F) : List Partition :=
  let sorted :=
    List.insertionSort (fun x y : ℚ => x ≤ y) ((s.featureValues f).map goFloat)
  (sorted.zip sorted.tail).map fun pr => rangeCandidate s f label e a b pr.1 pr.2

open Classical in
/-- One step of the max-information-gain selection fold of
newRangePartition. -/
noncomputable def chooseMaxIGStep (result : Option Partition) (c : Partition) :
    Option Partition :=
  match result with
  | none => some c
  | some r => if r.informationGain < c.informationGain then some c else result

open Classical in
/-- botanic.DefaultPruner: prune when the Rissanen-style minimum
(ln(N-1) + ln(3^k - 2) - k*H(S) + sum of ki*H(Si)) / N
exceeds the partition's information gain; k and ki are the lengths of the
dataset FeatureValues lists for the label. -/
noncomputable def defaultPrune : Pruner := fun s p label =>
  let n : ℝ := (s.count : ℝ)
  let k : ℝ := ((s.featureValues label).length : ℝ)
  let start := Real.log (n - 1) +
    Real.log ((3 : ℝ) ^ (s.featureValues label).length - 2) - k * s.entropy label
  let minimum := p.tasks.foldl
    (fun m st =>
      m + ((st.dataset.featureValues label).length : ℝ) * st.dataset.entropy label)
    start
  if minimum / n > p.informationGain then true else false

/-- The float values newRangePartition collects: each distinct feature value
(nil and strings included) converted by the Go float64 type assertion. -/
def collectedFloats (s : Dataset) (f : Feature) : List ℚ :=
  (s.featureValues f).map goFloat

/-- A sample whose every value is the number 1. -/
def rqSampleA : TSample := fun _ => some (.num 1)

/-- A sample whose every value is the number 4. -/
def rqSampleB : TSample := fun _ => some (.num 4)

/-- A sample that defines no value for any feature. -/
def rqMissSample : TSample := fun _ => none

/-- A two-sample dataset with numeric values 1 and 4. -/
def rqSet : Dataset := ⟨[rqSampleA, rqSampleB], []⟩

/-- A dataset with one sample missing the feature and one numeric value 4. -/
def rqMissSet : Dataset := ⟨[rqMissSample, rqSampleB], []⟩

/-- A continuous feature for the range-partition examples. -/
def rqFeat : Feature := .continuous "age"

/-- A label feature for the range-partition examples. -/
def rqLabel : Feature := .discrete "buys" ["yes", "no"]

/-- A task over the 1-and-4 dataset, for exercising the default pruner. -/
def dpTask : Task := ⟨{}, rqSet, []⟩

/-- A sample whose every value is the string a. -/
def c7SampleA : TSample := fun _ => some (.str "a")

/-- A two-sample dataset in which one sample has no label value: its nil
rendering makes FeatureValues report 2 distinct values while only the
value a is observed. -/
def c7Set : Dataset := ⟨[rqMissSample, c7SampleA], []⟩

/-- A partition with no branch tasks and information gain 1/2, sitting
between the default pruner's actual threshold ln(7)/2 on c7Set and the
threshold 0 the claimed formula yields there. -/
noncomputable def c7Part : Partition := ⟨rqFeat, [], 1/2⟩

/-- A concrete partition with one branch, for exercising the default
pruner. -/
noncomputable def dpPart : Partition := ⟨rqFeat, [dpTask], 0⟩

/-- tree.memoryNodeStore: the nodes map and the monotone nextID counter. -/
structure NodeStoreM where
  nodes : List (String × Node) := []
  nextID : Nat := 0
deriving DecidableEq, Repr

/-- The generate-and-retry loop of memoryNodeStore.Create:
generateRandomNodeID increments the counter and renders it in decimal;
while the id is taken, retry. Fuel bounds the retries (the Go loop cannot
give up; nodes.length + 1 distinct candidates make success the only
modelled outcome exercised). -/
def createLoop (taken : List (String × Node)) (n : Node) :
    Nat → Nat → Option (Node × NodeStoreM)
  | 0, _ => none
  | fuel + 1, curr =>
    let id := toString (curr + 1)
    if (storeGet taken id).isSome then createLoop taken n fuel (curr + 1)
    else some ({ n with id := id }, ⟨(id, { n with id := id }) :: taken, curr + 1⟩)

/-- memoryNodeStore.Create. -/
def NodeStoreM.create (st : NodeStoreM) (n : Node) : Option (Node × NodeStoreM) :=
  createLoop st.nodes n (st.nodes.length + 1) st.nextID

/-- memoryNodeStore.Delete: remove the binding for the node's id. -/
def NodeStoreM.delete (st : NodeStoreM) (n : Node) : NodeStoreM :=
  ⟨st.nodes.filter (fun p => p.1 != n.id), st.nextID⟩

/-- botanic.Seed over the in-memory node store and an abstract queue push
(queue implementations decide when Push errors): create the empty root node
in the store, build the root task and the tree, push the task; on push
failure delete the created node and propagate the error. -/
def seed {Q : Type} (label : Feature) (features : List Feature) (s : Dataset)
    (push : Q → Task → Except String Q) (q : Q) (st : NodeStoreM) :
    Except String Tree × NodeStoreM × Q :=
  match st.create {} with
  | none => (.error "node store create failed", st, q)
  | some (root, st₁) =>
    let task : Task := ⟨root, s, features⟩
    let t : Tree := ⟨st₁.nodes, root.id, label⟩
    match push q task with
    | .error e => (.error e, st₁.delete root, q)
    | .ok q₁ => (.ok t, st₁, q₁)

/-- The root node Seed creates on an empty store. -/
def seedRoot : Node := { id := "1" }

/-- The store state after Seed creates the root on an empty store. -/
def seedSt1 : NodeStoreM := ⟨[("1", seedRoot)], 1⟩

/-- A queue push that always succeeds, prepending the task. -/
def pushOkFn : List Task → Task → Except String (List Task) :=
  fun q t => .ok (t :: q)

/-- A queue push that always fails. -/
def pushFailFn : List Task → Task → Except String (List Task) :=
  fun _ _ => .error "boom"

/-- queue.memQueue: the pending ring buffer (slice of task slots, head,
tail, pending count) and the running tasks map. The lock and contexts are
concurrency plumbing outside the model; the locked callbacks of Push, Drop,
Complete and Count always return a nil error. -/
structure MemQueue where
  pendingTasks : List (Option Task) := []
  head : Nat := 0
  tail : Nat := 0
  pending : Nat := 0
  runningTasks : List (String × Task) := []

/-- memQueue.reorder: rotate the ring so that head is 0 (tail is recomputed
against the unchanged length). -/
def MemQueue.reorder (mq : MemQueue) : MemQueue :=
  if mq.head = 0 then mq
  else
    { mq with
      pendingTasks :=
        mq.pendingTasks.drop mq.head ++ mq.pendingTasks.take mq.head,
      head := 0,
      tail := mq.pending % mq.pendingTasks.length }

/-- The private memQueue.push: when the ring is full, reorder and append;
otherwise write at tail and advance it (Go leaves tail untouched in the
append branch). -/
def MemQueue.pushT (mq : MemQueue) (t : Task) : MemQueue :=
  if mq.pending = mq.pendingTasks.length then
    let r := mq.reorder
    { r with
      pendingTasks := r.pendingTasks ++ [some t],
      pending := r.pending + 1 }
  else
    { mq with
      pendingTasks := mq.pendingTasks.set mq.tail (some t),
      tail := (mq.tail + 1) % mq.pendingTasks.length,
      pending := mq.pending + 1 }

/-- memQueue.Push: unconditionally enqueue; the locked callback returns
nil. -/
def MemQueue.pushE (mq : MemQueue) (t : Task) : Except String MemQueue :=
  .ok (mq.pushT t)

/-- Lookup of a running task by id. -/
def runningLookup (l : List (String × Task)) (id : String) : Option Task :=
  (l.find? (fun p => p.1 == id)).map (fun p => p.2)

/-- memQueue.Drop: when the id is not running, do nothing; otherwise remove
it from running and push its task back as pending. -/
def MemQueue.drop (mq : MemQueue) (id : String) : Except String MemQueue :=
  match runningLookup mq.runningTasks id with
  | none => .ok mq
  | some t =>
    .ok (MemQueue.pushT
      { mq with runningTasks := mq.runningTasks.filter (fun p => p.1 != id) }
      t)

/-- memQueue.Complete: remove the id from the running map. -/
def MemQueue.complete (mq : MemQueue) (id : String) : Except String MemQueue :=
  .ok { mq with runningTasks := mq.runningTasks.filter (fun p => p.1 != id) }

/-- The pending tasks of the ring buffer, in queue order. -/
def MemQueue.pendingList (mq : MemQueue) : List Task :=
  (List.range mq.pending).filterMap
    (fun i =>
      match mq.pendingTasks.getD ((mq.head + i) % mq.pendingTasks.length) none
        with
      | some t => some t
      | none => none)

/-- redisq.redisQ server state: the task data string keys and the pending
and running id sets. -/
structure RedisQ where
  kv : List (String × String) := []
  pending : List String := []
  running : List String := []
deriving DecidableEq, Repr

/-- redisQ.Push: encode the task, SetNX its data key (failing when the key
exists), SAdd its key to the pending set (on a duplicate member, delete the
data key again and fail). An error therefore leaves the server state as it
was, so the model returns the state only on success. -/
def redisPush (qid : String) (enc : Task → Except String String)
    (rq : RedisQ) (t : Task) : Except String RedisQ :=
  match enc t with
  | .error e => .error ("pushing task " ++ t.node.id ++ " to queue: " ++ e)
  | .ok data =>
    let pfx := qid ++ ":task:" ++ t.node.id
    let dataKey := pfx ++ ":data"
    if (rq.kv.find? (fun p => p.1 == dataKey)).isSome then
      .error ("pushing task " ++ t.node.id ++ " to queue: key " ++ dataKey ++
        " already exists")
    else if pfx ∈ rq.pending then
      .error ("pushing task " ++ t.node.id ++ " to queue: " ++ pfx ++
        " already in pending set")
    else
      .ok { rq with
        kv := (dataKey, data) :: rq.kv,
        pending := pfx :: rq.pending }

/-- A task with node id 1 for the queue examples. -/
def c4Task : Task := ⟨{ id := "1" }, rqSet, []⟩

/-- An in-memory queue holding c4Task as pending. -/
def c4Queue : MemQueue := MemQueue.pushT {} c4Task

/-- A task encoder that always succeeds. -/
def encFn : Task → Except String String := fun _ => .ok "data"

/-- An in-memory queue with a task running under id 2. -/
def c10Queue : MemQueue := { runningTasks := [("2", c4Task)] }

/-- The information content of the string encodeContinuousCriterion writes
for an interval bound with fmt %f: an infinity sentinel, or a fixed
six-decimal-place numeral held as its integer number of millionths. -/
inductive TStr where
  | negInfS : TStr
  | posInfS : TStr
  | decS : ℤ → TStr
deriving DecidableEq, Repr

/-- Rounding to six decimal places as %f formatting does (round to nearest;
the ties-to-even detail of binary floats lies below this rational
idealization). -/
def round6 (q : ℚ) : ℤ := round (q * 1000000)

/-- fmt %f of a float64: "-Inf" and "+Inf" for the infinities, otherwise the
fixed six-decimal numeral. -/
def encodeThreshold : F → TStr
  | .negInf => .negInfS
  | .posInf => .posInfS
  | .fin q => .decS (round6 q)

/-- toContinuousCriterion's bound handling: "-Inf" is matched first,
everything else goes through strconv.ParseFloat, which accepts "+Inf" and
fixed-point numerals; a missing field is a parse error. -/
def parseThreshold : Option TStr → Except String F
  | none => .error "strconv.ParseFloat: parsing empty string"
  | some .negInfS => .ok .negInf
  | some .posInfS => .ok .posInf
  | some (.decS z) => .ok (.fin ((z : ℚ) / 1000000))

/-- A threshold after the write-read round trip: rounded to six decimal
places. -/
def roundF6 : F → F
  | .negInf => .negInf
  | .posInf => .posInf
  | .fin q => .fin ((round6 q : ℚ) / 1000000)

/-- feature/json jsonCriterion: tag, feature name, discrete value, interval
bounds (absent fields are omitted by omitempty and read back as their zero
values). -/
structure JsonCriterion where
  t : String
  f : String
  v : String := ""
  a : Option TStr := none
  b : Option TStr := none
deriving DecidableEq, Repr

/-- jsonCriteriaEncodeDecoder.Encode, by criterion variant. -/
def encodeCriterion : Criterion → JsonCriterion
  | .continuous f a b =>
    ⟨"continuous", f.name, "", some (encodeThreshold a), some (encodeThreshold b)⟩
  | .discrete f v => ⟨"discrete", f.name, v, none, none⟩
  | .undefined f => ⟨"undefined", f.name, "", none, none⟩

/-- First feature of the catalog with the given name (the loop the decoders
use to resolve names). -/
def findFeature (features : List Feature) (name : String) : Option Feature :=
  features.find? (fun ft => ft.name == name)

/-- jsonCriterion.Criterion: resolve the feature by name, then rebuild the
criterion according to the tag, checking the feature variant. -/
def decodeCriterion (features : List Feature) (jc : JsonCriterion) :
    Except String Criterion :=
  match findFeature features jc.f with
  | none => .error ("unknown feature " ++ jc.f)
  | some f =>
    match jc.t with
    | "continuous" =>
      match f with
      | .continuous _ =>
        match parseThreshold jc.a with
        | .error e => .error e
        | .ok a =>
          match parseThreshold jc.b with
          | .error e => .error e
          | .ok b => .ok (.continuous f a b)
      | _ =>
        .error ("expected continuous feature for continuous criterion but found feature "
          ++ f.name)
    | "discrete" =>
      match f with
      | .discrete _ _ => .ok (.discrete f jc.v)
      | _ =>
        .error ("expected discrete feature for discrete criterion but found feature "
          ++ f.name)
    | "undefined" => .ok (.undefined f)
    | _ => .error ("unknown feature criterion type " ++ jc.t)

/-- tree/json jsonPrediction. -/
structure JsonPrediction where
  probs : List (String × ℚ)
  w : Int
deriving DecidableEq, Repr

/-- tree/json node: the JSON object written for a tree.Node (omitempty
fields read back as zero values, so they are carried plainly). -/
structure JsonNode where
  id : String
  pId : String
  stIds : List String
  c : Option JsonCriterion
  f : String
  pred : Option JsonPrediction
deriving DecidableEq, Repr

/-- nodeEncodeDecoder.Encode. -/
def encodeNode (n : Node) : JsonNode :=
  ⟨n.id, n.parentID, n.subtreeIDs,
    n.featureCriterion.map encodeCriterion,
    (match n.subtreeFeature with
      | some f => f.name
      | none => ""),
    n.prediction.map (fun p => ⟨p.probabilities, p.weight⟩)⟩

/-- nodeEncodeDecoder.Decode: decode the criterion and prediction when
present, then resolve a non-empty subtree feature name against the
catalog. -/
def decodeNode (features : List Feature) (jn : JsonNode) :
    Except String Node :=
  match (match jn.c with
    | none => Except.ok none
    | some jc => (decodeCriterion features jc).map some) with
  | .error e => .error e
  | .ok crit =>
    match (if jn.f = "" then Except.ok none else
      match findFeature features jn.f with
      | some nf => Except.ok (some nf)
      | none =>
        Except.error ("unmarshalling node " ++ jn.id ++ ": unknown feature "
          ++ jn.f)) with
    | .error e => .error e
    | .ok sf =>
      .ok ⟨jn.id, jn.pId, jn.stIds,
        jn.pred.map (fun jp => ⟨jp.probs, jp.w⟩), crit, sf⟩

/-- The streamed JSON envelope of WriteJSONTree. -/
structure JsonTree where
  rootID : String
  label : String
  nodes : List JsonNode
deriving DecidableEq, Repr

/-- Tree.Traverse with bottomup = false: the parent before its children,
children in subtree id order. Fuel bounds the depth; a missing node is a
failure (the Go code would dereference a nil node). -/
def preorder (t : Tree) : Nat → String → Except String (List Node)
  | 0, _ => .error "traversal depth exhausted"
  | fuel + 1, id =>
    match t.get id with
    | none => .error ("node " ++ id ++ " not found")
    | some n =>
      match n.subtreeIDs.mapM (preorder t fuel) with
      | .error e => .error e
      | .ok ls => .ok (n :: ls.flatten)

/-- WriteJSONTree: the envelope with the root id, the label name and the
pre-order node list, each node encoded. -/
def writeTree (t : Tree) (fuel : Nat) : Except String JsonTree :=
  match preorder t fuel t.rootID with
  | .error e => .error e
  | .ok ns => .ok ⟨t.rootID, t.label.name, ns.map encodeNode⟩

/-- The map assignment NodeStore.Store performs for a decoded node. -/
def storePut (st : List (String × Node)) (n : Node) : List (String × Node) :=
  (n.id, n) :: st

/-- ReadJSONTree: resolve the label name against the catalog, reject an
empty root id, then decode every node and store it onto the given tree. -/
def readTree (jt : JsonTree) (features : List Feature) (t : Tree) :
    Except String Tree :=
  match findFeature features jt.label with
  | none => .error "no label feature defined"
  | some cf =>
    if jt.rootID = "" then .error "no root node id available"
    else
      match jt.nodes.foldlM (fun st jn =>
        match decodeNode features jn with
        | .error e => Except.error e
        | .ok n => Except.ok (storePut st n)) t.store with
      | .error e => .error e
      | .ok st => .ok ⟨st, jt.rootID, cf⟩

/-- A criterion after the round trip: interval bounds rounded to six decimal
places, everything else unchanged. -/
def roundCriterion : Criterion → Criterion
  | .continuous f a b => .continuous f (roundF6 a) (roundF6 b)
  | c => c

/-- A node after the round trip. -/
def roundNode (n : Node) : Node :=
  { n with featureCriterion := n.featureCriterion.map roundCriterion }

/-- Whether a criterion's feature has the variant its tag demands, as the
decoder checks. -/
def criterionKindOK : Criterion → Bool
  | .continuous f _ _ =>
    match f with
    | .continuous _ => true
    | _ => false
  | .discrete f _ =>
    match f with
    | .discrete _ _ => true
    | _ => false
  | .undefined _ => true

/-- Decodability of a criterion against a feature catalog: its feature
resolves by name to itself and has the matching variant. -/
def criterionCatalogOK (features : List Feature) (c : Criterion) : Bool :=
  (findFeature features c.feature.name == some c.feature) && criterionKindOK c

/-- Decodability of a node against a feature catalog: its criterion is
decodable and its subtree feature has a non-empty name resolving to
itself. -/
def nodeCatalogOK (features : List Feature) (n : Node) : Bool :=
  (match n.featureCriterion with
    | none => true
    | some c => criterionCatalogOK features c) &&
  (match n.subtreeFeature with
    | none => true
    | some f => (f.name != "") && (findFeature features f.name == some f))

/-- Round-trip example: the child for ages below 35. -/
def rtChild2 : Node :=
  { id := "2", parentID := "1",
    featureCriterion := some (.continuous rqFeat .negInf (.fin 35)),
    prediction := some ⟨[("yes", 1)], 2⟩ }

/-- Round-trip example: the undefined-criterion fallback child. -/
def rtChild3 : Node :=
  { id := "3", parentID := "1",
    featureCriterion := some (.undefined rqFeat),
    prediction := some ⟨[("no", 1/2), ("yes", 1/2)], 4⟩ }

/-- Round-trip example: the root, split on the age feature. -/
def rtRoot : Node :=
  { id := "1", subtreeIDs := ["2", "3"], subtreeFeature := some rqFeat,
    prediction := some ⟨[("no", 1/2), ("yes", 1/2)], 4⟩ }

/-- Round-trip example: the three-node tree. -/
def rtTree : Tree :=
  ⟨[("1", rtRoot), ("2", rtChild2), ("3", rtChild3)], "1", rqLabel⟩

/-- Round-trip example: the feature catalog. -/
def rtCatalog : List Feature := [rqFeat, rqLabel]

/-- C2, counterexample: for the interval criterion with a = +∞, b = +∞ and a
sample whose value is the number 0, the code returns true (math.IsInf(a, 0)
holds for +∞, opening the lower bound) while the specification formula
(a = −∞ ∨ a ≤ x) ∧ (b = +∞ ∨ x < b) is false. -/
theorem satisfiedBy_posInf_lower_counterexample :
    Criterion.satisfiedBy (.continuous (.continuous "age") .posInf .posInf)
        ⟨fun _ => .ok (some (.num 0))⟩ = .ok true ∧
      specIntervalSatisfied .posInf .posInf 0 = false := by
  constructor <;> rfl

/-- C2, amended: for every numeric-interval criterion whose lower bound is not
+∞ and whose upper bound is not −∞ (the code treats an infinity of either sign
as an open bound), and every sample whose lookup succeeds: if the value is a
number x, SatisfiedBy returns exactly (a = −∞ ∨ a ≤ x) ∧ (b = +∞ ∨ x < b); if
the value is absent or not a number it returns false; in neither case does it
return an error. -/
theorem satisfiedBy_interval_amended (f : Feature) (a b : F) (s : Sample)
    (v : Option Value) (hv : s.valueFor f = .ok v)
    (ha : a ≠ F.posInf) (hb : b ≠ F.negInf) :
    Criterion.satisfiedBy (.continuous f a b) s =
      .ok (match v with
        | some (.num x) => specIntervalSatisfied a b x
        | _ => false) := by
  match v with
  | none => simp [Criterion.satisfiedBy, hv]
  | some (.str t) => simp [Criterion.satisfiedBy, hv]
  | some (.num x) =>
    simp only [Criterion.satisfiedBy, hv]
    congr 1
    cases a with
    | negInf => cases b with
      | negInf => exact absurd rfl hb
      | posInf => rfl
      | fin q => rfl
    | posInf => exact absurd rfl ha
    | fin q => cases b with
      | negInf => exact absurd rfl hb
      | posInf => rfl
      | fin r => rfl

/-- C2, witness for the amended theorem at the criterion [2, 5) and sample
value 3. -/
theorem satisfiedBy_interval_amended_witness :
    (Sample.valueFor ⟨fun _ => .ok (some (.num 3))⟩ (.continuous "age") =
        .ok (some (.num 3)) ∧
      F.fin 2 ≠ F.posInf ∧ F.fin 5 ≠ F.negInf) ∧
      Criterion.satisfiedBy (.continuous (.continuous "age") (.fin 2) (.fin 5))
          ⟨fun _ => .ok (some (.num 3))⟩ =
        .ok (specIntervalSatisfied (.fin 2) (.fin 5) 3) :=
  ⟨⟨rfl, by decide, by decide⟩,
    satisfiedBy_interval_amended (.continuous "age") (.fin 2) (.fin 5)
      ⟨fun _ => .ok (some (.num 3))⟩ (some (.num 3)) rfl (by decide) (by decide)⟩

theorem selectNode_eq_spec (t : Tree) (s : Sample) (ids : List String) :
    ∀ sel : Option Node,
      t.selectNode s ids sel =
        match t.firstSpecificMatch s ids with
        | .error e => .error e
        | .ok (some n) => .ok (some n)
        | .ok none => .ok ((t.lastUndefinedChild ids).orElse fun _ => sel) := by
  induction ids with
  | nil => intro sel; rfl
  | cons nID rest ih =>
    intro sel
    simp only [Tree.selectNode, Tree.firstSpecificMatch, Tree.lastUndefinedChild]
    cases hget : t.get nID with
    | none => rfl
    | some sub =>
      cases hcrit : sub.featureCriterion with
      | none =>
        simp only [hcrit, ih sel]
        cases t.firstSpecificMatch s rest with
        | error e => rfl
        | ok r =>
          cases r with
          | some n => rfl
          | none => cases t.lastUndefinedChild rest <;> rfl
      | some c =>
        simp only [hcrit]
        cases hsat : c.satisfiedBy s with
        | error e => rfl
        | ok ok =>
          cases hu : c.isUndefined with
          | false =>
            cases ok with
            | true => simp only [hu]; rfl
            | false =>
              simp only [hu, Bool.false_and, Bool.not_false, if_neg, ih sel,
                Bool.false_eq_true, reduceIte]
              cases t.firstSpecificMatch s rest with
              | error e => rfl
              | ok r =>
                cases r with
                | some n => rfl
                | none => cases t.lastUndefinedChild rest <;> rfl
          | true =>
            have hc : c = .undefined c.feature := by
              cases c with
              | undefined f => rfl
              | continuous f a b => simp [Criterion.isUndefined] at hu
              | discrete f v => simp [Criterion.isUndefined] at hu
            have hok : ok = true := by
              rw [hc] at hsat
              simp [Criterion.satisfiedBy] at hsat
              exact hsat
            subst hok
            simp only [hu, Bool.not_true, Bool.and_false, Bool.false_eq_true,
              reduceIte, if_pos, ih (some sub)]
            cases t.firstSpecificMatch s rest with
            | error e => rfl
            | ok r =>
              cases r with
              | some n => rfl
              | none => cases t.lastUndefinedChild rest <;> rfl

theorem predictLoop_eq_spec (t : Tree) (s : Sample) :
    ∀ (fuel : Nat) (n : Node),
      t.predictLoop s fuel n = t.predictSpecLoop s fuel n := by
  intro fuel
  induction fuel with
  | zero => intro n; rfl
  | succ fuel ih =>
    intro n
    simp only [Tree.predictLoop, Tree.predictSpecLoop]
    cases n.subtreeFeature with
    | none => rfl
    | some f =>
      rw [selectNode_eq_spec]
      cases t.firstSpecificMatch s n.subtreeIDs with
      | error e => rfl
      | ok r =>
        cases r with
        | some sel => exact ih sel
        | none =>
          cases t.lastUndefinedChild n.subtreeIDs with
          | some sel => exact ih sel
          | none => rfl

/-- C1: for every tree, sample and fuel bound, Tree.Predict is exactly the
specified descent: at each internal node the first child in subtree_ids order
whose criterion is a satisfied discrete-equality or numeric-interval
criterion is taken; failing that, a child carrying an undefined criterion;
failing that, the error about not satisfying any subtree criteria on the
feature; at the reached leaf the Prediction is returned, or
ErrCannotPredictFromSample when it is nil. -/
theorem predict_eq_predictSpec (t : Tree) (s : Sample) (fuel : Nat) :
    t.predict s fuel = t.predictSpec s fuel := by
  simp only [Tree.predict, Tree.predictSpec]
  cases t.get t.rootID with
  | none => rfl
  | some n => exact predictLoop_eq_spec t s fuel n

theorem satisfiedBy_toSample (c : Criterion) (sm : TSample) :
    c.satisfiedBy sm.toSample = .ok (c.sat sm) := by
  cases c with
  | continuous f a b =>
    simp only [Criterion.satisfiedBy, Criterion.sat, TSample.toSample]
    cases hv : sm f with
    | none => rfl
    | some v => cases v <;> rfl
  | discrete f v =>
    simp only [Criterion.satisfiedBy, Criterion.sat, TSample.toSample]
    cases hv : sm f with
    | none => rfl
    | some w => cases w <;> rfl
  | undefined f => rfl

theorem entropyOfList_nonneg (l : List Value) : 0 ≤ entropyOfList l := by
  refine Finset.sum_nonneg fun v hv => ?_
  refine Real.negMulLog_nonneg (by positivity) ?_
  rcases Nat.eq_zero_or_pos l.length with h0 | hpos
  · simp [h0]
  · exact div_le_one_of_le₀ (Nat.cast_le.mpr (List.count_le_length v l))
      (by positivity)

theorem list_toFinset_sum_count (l : List Value) :
    ∑ v ∈ l.toFinset, (l.count v : ℝ) = (l.length : ℝ) := by
  have h2 : ∑ v ∈ l.toFinset, l.count v = l.length := by
    simp
  calc ∑ v ∈ l.toFinset, (l.count v : ℝ)
      = ((∑ v ∈ l.toFinset, l.count v : ℕ) : ℝ) := by push_cast; rfl
    _ = (l.length : ℝ) := by rw [h2]

theorem entropyOfList_le_log_card (l : List Value) :
    entropyOfList l ≤ Real.log (l.toFinset.card : ℝ) := by
  rcases eq_or_ne l [] with rfl | hne
  · simp [entropyOfList]
  · have hN : 0 < l.length := List.length_pos.mpr hne
    have hNR : (0 : ℝ) < (l.length : ℝ) := by exact_mod_cast hN
    have hw0 : ∀ v ∈ l.toFinset, 0 ≤ (l.count v : ℝ) / (l.length : ℝ) := by
      intro v hv; positivity
    have hw1 : ∑ v ∈ l.toFinset, (l.count v : ℝ) / (l.length : ℝ) = 1 := by
      rw [← Finset.sum_div, list_toFinset_sum_count, div_self (ne_of_gt hNR)]
    have hcount : ∀ v ∈ l.toFinset, (0 : ℝ) < (l.count v : ℝ) := by
      intro v hv
      exact_mod_cast List.count_pos_iff.mpr (List.mem_toFinset.mp hv)
    have hwpos : ∀ v ∈ l.toFinset, (0 : ℝ) < (l.count v : ℝ) / (l.length : ℝ) :=
      fun v hv => div_pos (hcount v hv) hNR
    have hmem : ∀ v ∈ l.toFinset,
        ((l.count v : ℝ) / (l.length : ℝ))⁻¹ ∈ Set.Ioi (0 : ℝ) :=
      fun v hv => Set.mem_Ioi.mpr (inv_pos.mpr (hwpos v hv))
    have key := ConcaveOn.le_map_sum strictConcaveOn_log_Ioi.concaveOn
      hw0 hw1 hmem
    have hlhs : entropyOfList l =
        ∑ v ∈ l.toFinset, ((l.count v : ℝ) / (l.length : ℝ)) •
          Real.log (((l.count v : ℝ) / (l.length : ℝ))⁻¹) := by
      refine Finset.sum_congr rfl fun v hv => ?_
      rw [Real.log_inv, smul_eq_mul, Real.negMulLog]
      ring
    have hrhs : ∑ v ∈ l.toFinset, ((l.count v : ℝ) / (l.length : ℝ)) •
        ((l.count v : ℝ) / (l.length : ℝ))⁻¹ = (l.toFinset.card : ℝ) := by
      have hone : ∀ v ∈ l.toFinset, ((l.count v : ℝ) / (l.length : ℝ)) •
          ((l.count v : ℝ) / (l.length : ℝ))⁻¹ = 1 := by
        intro v hv
        rw [smul_eq_mul, mul_inv_cancel₀ (ne_of_gt (hwpos v hv))]
      rw [Finset.sum_congr rfl hone]
      simp
    rw [hlhs]
    calc ∑ v ∈ l.toFinset, ((l.count v : ℝ) / (l.length : ℝ)) •
          Real.log (((l.count v : ℝ) / (l.length : ℝ))⁻¹)
        ≤ Real.log (∑ v ∈ l.toFinset, ((l.count v : ℝ) / (l.length : ℝ)) •
            ((l.count v : ℝ) / (l.length : ℝ))⁻¹) := key
      _ = Real.log (l.toFinset.card : ℝ) := by rw [hrhs]

theorem entropyOfList_eq_zero_iff (l : List Value) :
    entropyOfList l = 0 ↔ ∀ v ∈ l, ∀ w ∈ l, v = w := by
  constructor
  · intro h v hv w hw
    have hN : 0 < l.length := List.length_pos.mpr (by rintro rfl; simp at hv)
    have hNR : (0 : ℝ) < (l.length : ℝ) := by exact_mod_cast hN
    have hnn : ∀ u ∈ l.toFinset,
        0 ≤ Real.negMulLog ((l.count u : ℝ) / (l.length : ℝ)) := by
      intro u hu
      exact Real.negMulLog_nonneg (by positivity)
        (div_le_one_of_le₀ (Nat.cast_le.mpr (List.count_le_length u l))
          (by positivity))
    have hterm := (Finset.sum_eq_zero_iff_of_nonneg hnn).mp h v
      (List.mem_toFinset.mpr hv)
    have hp : (0 : ℝ) < (l.count v : ℝ) / (l.length : ℝ) :=
      div_pos (by exact_mod_cast List.count_pos_iff.mpr hv) hNR
    have hx1 : (l.count v : ℝ) / (l.length : ℝ) = 1 := by
      rw [Real.negMulLog, neg_mul, neg_eq_zero, mul_eq_zero] at hterm
      rcases hterm with h1 | h1
      · exact absurd h1 (ne_of_gt hp)
      · rcases Real.log_eq_zero.mp h1 with h2 | h2 | h2
        · exact absurd h2 (ne_of_gt hp)
        · exact h2
        · exact absurd h2 (by linarith)
    have hcount : l.count v = l.length := by
      have := (div_eq_one_iff_eq (ne_of_gt hNR)).mp hx1
      exact_mod_cast this
    have hall := List.count_eq_length.mp hcount
    exact (hall w hw).symm ▸ rfl
  · intro h
    rcases eq_or_ne l [] with rfl | hne
    · simp [entropyOfList]
    · obtain ⟨a, ha⟩ := List.exists_mem_of_ne_nil l hne
      have htf : l.toFinset = {a} := by
        ext x
        simp only [List.mem_toFinset, Finset.mem_singleton]
        exact ⟨fun hx => h x hx a ha, fun hx => hx ▸ ha⟩
      have hcount : l.count a = l.length :=
        List.count_eq_length.mpr fun b hb => h a ha b hb
      have hN : 0 < l.length := List.length_pos.mpr hne
      rw [entropyOfList, htf, Finset.sum_singleton, hcount,
        div_self (by exact_mod_cast ne_of_gt hN), Real.negMulLog_one]

/-- C8: Dataset.Entropy is the natural-log Shannon entropy over the observed
(non-nil) values of the feature, absent values excluded from numerator and
denominator; hence with k the number of observed distinct values it lies in
[0, ln k], and it is 0 exactly when a single value accounts for all
non-missing samples. -/
theorem entropy_shannon_bounds (d : Dataset) (f : Feature) :
    0 ≤ d.entropy f ∧
      d.entropy f ≤ Real.log (((d.observedValues f).toFinset.card : ℕ) : ℝ) ∧
      (d.entropy f = 0 ↔
        ∀ v ∈ d.observedValues f, ∀ w ∈ d.observedValues f, v = w) :=
  ⟨entropyOfList_nonneg _, entropyOfList_le_log_card _,
    entropyOfList_eq_zero_iff _⟩

theorem discreteFold (s : Dataset) (f label : Feature) (vals : List String) :
    ∀ (ts : List Task) (g : ℝ),
      vals.foldl
        (fun (acc : List Task × ℝ) v =>
          (acc.1 ++ [⟨⟨"", "", [], none, some (Criterion.discrete f v), none⟩,
              s.subsetWith (Criterion.discrete f v), []⟩],
            acc.2 - (s.subsetWith (Criterion.discrete f v)).entropy label *
              ((s.subsetWith (Criterion.discrete f v)).count : ℝ) /
              (s.count : ℝ)))
        (ts, g) =
      (ts ++ vals.map (discreteBranch s f),
        g - (vals.map fun v => weightedEntropyTerm s label
          (s.subsetWith (Criterion.discrete f v))).sum) := by
  induction vals with
  | nil => intro ts g; simp
  | cons v vs ih =>
    intro ts g
    simp only [List.foldl_cons, List.map_cons, List.sum_cons]
    rw [ih]
    refine Prod.ext ?_ ?_
    · simp [discreteBranch, List.append_assoc]
    · simp only [weightedEntropyTerm]
      ring

/-- C5: for every dataset, discrete feature, label and pruner,
NewDiscretePartition builds exactly one branch per available value, in order,
each carrying DiscreteEquality(F, v) and the subset of S satisfying it; when
the pruner does not prune this partition an Undefined(F) branch over the
full parent dataset is appended as the last branch, and when it prunes the
result is nil. -/
theorem newDiscretePartition_spec (s : Dataset) (name : String)
    (vals : List String) (label : Feature) (p : Pruner) :
    newDiscretePartition s name vals label p =
      if p s (discreteBasePartition s name vals label) label then none
      else some ⟨Feature.discrete name vals,
        (discreteBasePartition s name vals label).tasks ++
          [undefinedBranch s (Feature.discrete name vals)],
        (discreteBasePartition s name vals label).informationGain⟩ := by
  simp only [newDiscretePartition]
  rw [discreteFold s (Feature.discrete name vals) label vals [] (s.entropy label)]
  simp only [List.nil_append]
  rfl

theorem mem_dedupFirst {α : Type} [DecidableEq α] (l : List α) :
    ∀ (seen : List α) (a : α), a ∈ dedupFirst seen l ↔ a ∈ l ∧ a ∉ seen := by
  induction l with
  | nil => intro seen a; simp [dedupFirst]
  | cons b rest ih =>
    intro seen a
    simp only [dedupFirst]
    by_cases hb : b ∈ seen
    · rw [if_pos hb, ih]
      constructor
      · rintro ⟨h1, h2⟩
        exact ⟨List.mem_cons_of_mem _ h1, h2⟩
      · rintro ⟨h1, h2⟩
        rcases List.mem_cons.mp h1 with rfl | h1
        · exact absurd hb h2
        · exact ⟨h1, h2⟩
    · rw [if_neg hb]
      simp only [List.mem_cons, ih]
      constructor
      · rintro (rfl | ⟨h1, h2⟩)
        · exact ⟨Or.inl rfl, hb⟩
        · simp only [List.mem_cons, not_or] at h2
          exact ⟨Or.inr h1, h2.2⟩
      · rintro ⟨rfl | h1, h2⟩
        · exact Or.inl rfl
        · by_cases hab : a = b
          · exact Or.inl hab
          · exact Or.inr ⟨h1, by simp [List.mem_cons, hab, h2]⟩

theorem nodup_dedupFirst {α : Type} [DecidableEq α] (l : List α) :
    ∀ seen : List α, (dedupFirst seen l).Nodup := by
  induction l with
  | nil => intro seen; simp [dedupFirst]
  | cons b rest ih =>
    intro seen
    simp only [dedupFirst]
    by_cases hb : b ∈ seen
    · rw [if_pos hb]; exact ih seen
    · rw [if_neg hb]
      refine List.nodup_cons.mpr ⟨?_, ih (b :: seen)⟩
      intro hmem
      exact ((mem_dedupFirst rest (b :: seen) b).mp hmem).2 (List.mem_cons_self b seen)

theorem chooseMaxIGStep_some (cands : List Partition) :
    ∀ r : Partition, ∃ m, cands.foldl chooseMaxIGStep (some r) = some m ∧
      (m = r ∨ m ∈ cands) ∧ r.informationGain ≤ m.informationGain ∧
      ∀ c ∈ cands, c.informationGain ≤ m.informationGain := by
  induction cands with
  | nil => intro r; exact ⟨r, rfl, Or.inl rfl, le_refl _, by simp⟩
  | cons c cs ih =>
    intro r
    simp only [List.foldl_cons]
    have hstep : chooseMaxIGStep (some r) c =
        if r.informationGain < c.informationGain then some c else some r := rfl
    by_cases h : r.informationGain < c.informationGain
    · rw [hstep, if_pos h]
      obtain ⟨m, hm, hmem, hle, hall⟩ := ih c
      refine ⟨m, hm, Or.inr ?_, le_of_lt (lt_of_lt_of_le h hle), ?_⟩
      · rcases hmem with rfl | hmem
        · exact List.mem_cons_self m cs
        · exact List.mem_cons_of_mem c hmem
      · intro d hd
        rcases List.mem_cons.mp hd with rfl | hd
        · exact hle
        · exact hall d hd
    · rw [hstep, if_neg h]
      obtain ⟨m, hm, hmem, hle, hall⟩ := ih r
      refine ⟨m, hm, ?_, hle, ?_⟩
      · rcases hmem with rfl | hmem
        · exact Or.inl rfl
        · exact Or.inr (List.mem_cons_of_mem c hmem)
      · intro d hd
        rcases List.mem_cons.mp hd with rfl | hd
        · exact le_trans (not_lt.mp h) hle
        · exact hall d hd

theorem chooseFold_max (cands : List Partition) (hne : cands ≠ []) :
    ∃ m, cands.foldl chooseMaxIGStep none = some m ∧ m ∈ cands ∧
      ∀ c ∈ cands, c.informationGain ≤ m.informationGain := by
  match cands, hne with
  | c :: cs, _ =>
    simp only [List.foldl_cons]
    have h0 : chooseMaxIGStep none c = some c := rfl
    rw [h0]
    obtain ⟨m, hm, hmem, hle, hall⟩ := chooseMaxIGStep_some cs c
    refine ⟨m, hm, ?_, ?_⟩
    · rcases hmem with rfl | hmem
      · exact List.mem_cons_self m cs
      · exact List.mem_cons_of_mem c hmem
    · intro d hd
      rcases List.mem_cons.mp hd with rfl | hd
      · exact hle
      · exact hall d hd

/-- C6, counterexample: in a dataset whose only numeric value for the feature
is 4 (the other sample lacks the feature), the claim says the search collects
one value and yields no partition; the code converts the nil distinct value
to 0.0 through the ignored float64 type assertion, collects [0, 4], and does
produce a partition. -/
theorem rangePartition_missing_value_counterexample :
    rqMissSet.observedValues rqFeat = [Value.num 4] ∧
      collectedFloats rqMissSet rqFeat = [0, 4] ∧
      (newRangePartition rqMissSet rqFeat rqLabel 0 .negInf .posInf).isSome
        = true := by
  refine ⟨by decide, by decide, ?_⟩
  simp only [newRangePartition]
  norm_num [rqMissSet, rqMissSample, rqSampleB, rqFeat, Dataset.featureValues,
    dedupFirst, goFloat, List.insertionSort, List.orderedInsert]
  decide

/-- C6, amended: when every sample has a numeric value for the feature, the
best-threshold search collects exactly the distinct numeric values present in
S; with fewer than 2 collected values it yields no partition; otherwise it
yields the maximum-information-gain candidate among the two-way partitions
[a, t), [t, b) at the thresholds t = (x + y)/2 of the adjacent pairs of the
ascending sorted collected values. (In general the code collects one float per
distinct value with nil and non-numeric values converted to 0, see the
counterexample.) -/
theorem rangePartition_amended (s : Dataset) (f label : Feature) (e : ℝ)
    (a b : F) (hall : s.samples.all (fun sm => isNumValue (sm f)) = true) :
    ((collectedFloats s f).Nodup ∧
      ∀ q : ℚ, q ∈ collectedFloats s f ↔
        ∃ sm ∈ s.samples, sm f = some (.num q)) ∧
    (List.insertionSort (fun x y : ℚ => x ≤ y) (collectedFloats s f)).Sorted
        (· ≤ ·) ∧
    (List.insertionSort (fun x y : ℚ => x ≤ y) (collectedFloats s f)).Perm
        (collectedFloats s f) ∧
    ((collectedFloats s f).length < 2 →
      newRangePartition s f label e a b = none) ∧
    (2 ≤ (collectedFloats s f).length →
      ∃ m, newRangePartition s f label e a b = some m ∧
        m ∈ rangeCandidates s f label e a b ∧
        ∀ c ∈ rangeCandidates s f label e a b,
          c.informationGain ≤ m.informationGain) := by
  have hnum : ∀ v ∈ s.samples.map (fun sm => sm f), isNumValue v = true := by
    intro v hv
    obtain ⟨sm, hsm, rfl⟩ := List.mem_map.mp hv
    exact List.all_eq_true.mp hall sm hsm
  have hdnod : (dedupFirst [] (s.samples.map (fun sm => sm f))).Nodup :=
    nodup_dedupFirst _ []
  have hdmem : ∀ v, v ∈ dedupFirst [] (s.samples.map (fun sm => sm f)) ↔
      v ∈ s.samples.map (fun sm => sm f) := by
    intro v
    rw [mem_dedupFirst]
    simp
  refine ⟨⟨?_, ?_⟩, List.sorted_insertionSort _ _, List.perm_insertionSort _ _,
    ?_, ?_⟩
  · refine List.Nodup.map_on ?_ hdnod
    intro x hx y hy hxy
    have hxv := hnum x ((hdmem x).mp hx)
    have hyv := hnum y ((hdmem y).mp hy)
    match x, hxv with
    | some (.num qx), _ =>
      match y, hyv with
      | some (.num qy), _ =>
        simp only [goFloat] at hxy
        rw [hxy]
  · intro q
    constructor
    · intro hq
      obtain ⟨v, hv, rfl⟩ := List.mem_map.mp hq
      have hvl := (hdmem v).mp hv
      have hvv := hnum v hvl
      match v, hvv with
      | some (.num q₀), _ =>
        obtain ⟨sm, hsm, hsmv⟩ := List.mem_map.mp hvl
        exact ⟨sm, hsm, hsmv⟩
    · rintro ⟨sm, hsm, hv⟩
      refine List.mem_map.mpr ⟨some (.num q), ?_, rfl⟩
      exact (hdmem _).mpr (List.mem_map.mpr ⟨sm, hsm, hv⟩)
  · intro hlt
    simp only [collectedFloats] at hlt
    simp only [newRangePartition]
    rw [if_pos hlt]
  · intro hge
    simp only [collectedFloats] at hge
    have hnlt : ¬ ((s.featureValues f).map goFloat).length < 2 := not_lt.mpr hge
    have hkey : newRangePartition s f label e a b =
        (rangeCandidates s f label e a b).foldl chooseMaxIGStep none := by
      simp only [newRangePartition, rangeCandidates]
      rw [if_neg hnlt, List.foldl_map]
      rfl
    have hlen : 0 < (rangeCandidates s f label e a b).length := by
      have hperm := (List.perm_insertionSort (fun x y : ℚ => x ≤ y)
        ((s.featureValues f).map goFloat)).length_eq
      simp only [rangeCandidates, List.length_map, List.length_zip,
        List.length_tail]
      omega
    obtain ⟨m, hm, hmem, hmax⟩ :=
      chooseFold_max (rangeCandidates s f label e a b) (by
        intro hnil
        rw [hnil] at hlen
        simp at hlen)
    rw [hkey]
    exact ⟨m, hm, hmem, hmax⟩

/-- C6, witness for the amended theorem on the dataset with numeric values
1 and 4. -/
theorem rangePartition_amended_witness :
    (rqSet.samples.all (fun sm => isNumValue (sm rqFeat)) = true) ∧
    (((collectedFloats rqSet rqFeat).Nodup ∧
      ∀ q : ℚ, q ∈ collectedFloats rqSet rqFeat ↔
        ∃ sm ∈ rqSet.samples, sm rqFeat = some (.num q)) ∧
    (List.insertionSort (fun x y : ℚ => x ≤ y)
        (collectedFloats rqSet rqFeat)).Sorted (· ≤ ·) ∧
    (List.insertionSort (fun x y : ℚ => x ≤ y)
        (collectedFloats rqSet rqFeat)).Perm (collectedFloats rqSet rqFeat) ∧
    ((collectedFloats rqSet rqFeat).length < 2 →
      newRangePartition rqSet rqFeat rqLabel 0 .negInf .posInf = none) ∧
    (2 ≤ (collectedFloats rqSet rqFeat).length →
      ∃ m, newRangePartition rqSet rqFeat rqLabel 0 .negInf .posInf = some m ∧
        m ∈ rangeCandidates rqSet rqFeat rqLabel 0 .negInf .posInf ∧
        ∀ c ∈ rangeCandidates rqSet rqFeat rqLabel 0 .negInf .posInf,
          c.informationGain ≤ m.informationGain)) :=
  ⟨by decide,
    rangePartition_amended rqSet rqFeat rqLabel 0 .negInf .posInf (by decide)⟩

theorem foldl_add_map (g : Task → ℝ) (l : List Task) :
    ∀ x : ℝ, l.foldl (fun m st => m + g st) x = x + (l.map g).sum := by
  induction l with
  | nil => intro x; simp
  | cons t ts ih =>
    intro x
    simp only [List.foldl_cons, List.map_cons, List.sum_cons]
    rw [ih]
    ring

theorem all_some_map (l : List (Option Value))
    (h : ∀ v ∈ l, v.isSome = true) : l = (l.filterMap id).map some := by
  induction l with
  | nil => simp
  | cons v vs ih =>
    match v, h v (List.mem_cons_self v vs) with
    | some w, _ =>
      simp only [List.filterMap_cons, id, List.map_cons, List.cons.injEq]
      exact ⟨trivial, ih fun u hu => h u (List.mem_cons_of_mem _ hu)⟩

theorem featureValues_length_eq_card (d : Dataset) (f : Feature)
    (h : d.samples.all (fun sm => (sm f).isSome) = true) :
    (d.featureValues f).length = (d.observedValues f).toFinset.card := by
  have hsome : ∀ v ∈ d.samples.map (fun sm => sm f), v.isSome = true := by
    intro v hv
    obtain ⟨sm, hsm, rfl⟩ := List.mem_map.mp hv
    exact List.all_eq_true.mp h sm hsm
  have hnod := nodup_dedupFirst (d.samples.map fun sm => sm f) []
  have hlen : (dedupFirst [] (d.samples.map fun sm => sm f)).length =
      (dedupFirst [] (d.samples.map fun sm => sm f)).toFinset.card :=
    (List.toFinset_card_of_nodup hnod).symm
  have hset : (dedupFirst [] (d.samples.map fun sm => sm f)).toFinset =
      (d.samples.map fun sm => sm f).toFinset := by
    ext v
    simp [List.mem_toFinset, mem_dedupFirst]
  have hmap := all_some_map (d.samples.map fun sm => sm f) hsome
  calc (d.featureValues f).length
      = (dedupFirst [] (d.samples.map fun sm => sm f)).length := rfl
    _ = (d.samples.map fun sm => sm f).toFinset.card := by rw [hlen, hset]
    _ = (((d.samples.map fun sm => sm f).filterMap id).map some).toFinset.card
        := by rw [← hmap]
    _ = ((d.samples.map fun sm => sm f).filterMap id).toFinset.card := by
        have himg : (((d.samples.map fun sm => sm f).filterMap id).map
            some).toFinset =
            ((d.samples.map fun sm => sm f).filterMap id).toFinset.image some
            := by
          ext x
          simp
        rw [himg, Finset.card_image_of_injective _ (Option.some_injective _)]
    _ = (d.observedValues f).toFinset.card := rfl

/-- C7, counterexample: on the dataset with one unlabeled sample and one
labeled a, FeatureValues counts the nil entry, so the code uses k = 2 and
prunes a branchless partition of information gain 1/2 (its threshold is
ln(7)/2 > 1/2), while the claimed formula with k = 1 distinct label value
gives (ln(2-1) + ln(3-2) - 0 + 0)/2 = 0, which does not exceed 1/2: the
prune decision and the claimed formula diverge. -/
theorem defaultPrune_formula_counterexample :
    defaultPrune c7Set c7Part rqLabel = true ∧
    ¬((Real.log ((c7Set.count : ℝ) - 1) +
        Real.log ((3 : ℝ) ^ ((c7Set.observedValues rqLabel).toFinset.card) - 2)
        - ((c7Set.observedValues rqLabel).toFinset.card : ℝ) *
          c7Set.entropy rqLabel +
        (c7Part.tasks.map fun t =>
          ((t.dataset.observedValues rqLabel).toFinset.card : ℝ) *
            t.dataset.entropy rqLabel).sum) / (c7Set.count : ℝ) >
        c7Part.informationGain) := by
  have hobs : c7Set.observedValues rqLabel = [Value.str "a"] := by decide
  have hent : c7Set.entropy rqLabel = 0 := by
    rw [show c7Set.entropy rqLabel = entropyOfList [Value.str "a"] from by
      rw [Dataset.entropy, hobs]]
    simp [entropyOfList]
  have hlen : (c7Set.featureValues rqLabel).length = 2 := by decide
  have hcnt : c7Set.count = 2 := by decide
  have hcard : (c7Set.observedValues rqLabel).toFinset.card = 1 := by
    rw [hobs]
    decide
  have hlog7 : (1 : ℝ) < Real.log 7 := by
    rw [Real.lt_log_iff_exp_lt (by norm_num : (0 : ℝ) < 7)]
    calc Real.exp 1 < 2.7182818286 := Real.exp_one_lt_d9
      _ < 7 := by norm_num
  constructor
  · simp only [defaultPrune, c7Part, List.foldl_nil, hent, hlen, hcnt]
    split
    · rfl
    · next hcond =>
      exfalso
      apply hcond
      push_cast
      norm_num [Real.log_one]
      linarith
  · intro hgt
    simp only [c7Part, List.map_nil, List.sum_nil, hent, hcard, hcnt] at hgt
    push_cast at hgt
    norm_num [Real.log_one] at hgt

/-- C7, amended: the Default pruner prunes exactly when
(ln(N-1) + ln(3^k - 2) - k*H(S|L) + sum of ki*H(Si|L)) / N exceeds the
partition's information gain, where N is the sample count of S and, for
datasets in which every sample of S and of each branch dataset defines the
label, k and ki are the numbers of distinct label values of S and of the
i-th branch dataset (in general the code's FeatureValues counts the nil
rendering of a missing label as one further distinct value; see the
counterexample). -/
theorem defaultPrune_iff (s : Dataset) (p : Partition) (label : Feature)
    (hs : s.samples.all (fun sm => (sm label).isSome) = true)
    (hb : ∀ t ∈ p.tasks,
      t.dataset.samples.all (fun sm => (sm label).isSome) = true) :
    (defaultPrune s p label = true ↔
      (Real.log ((s.count : ℝ) - 1) +
        Real.log ((3 : ℝ) ^ ((s.observedValues label).toFinset.card) - 2) -
        ((s.observedValues label).toFinset.card : ℝ) * s.entropy label +
        (p.tasks.map fun t =>
          ((t.dataset.observedValues label).toFinset.card : ℝ) *
            t.dataset.entropy label).sum) / (s.count : ℝ) >
        p.informationGain) := by
  have hk := featureValues_length_eq_card s label hs
  have hmap : (p.tasks.map fun t =>
      ((t.dataset.featureValues label).length : ℝ) * t.dataset.entropy label) =
      p.tasks.map fun t =>
        ((t.dataset.observedValues label).toFinset.card : ℝ) *
          t.dataset.entropy label := by
    refine List.map_congr_left fun t ht => ?_
    rw [featureValues_length_eq_card t.dataset label (hb t ht)]
  simp only [defaultPrune]
  rw [foldl_add_map
    (fun t => ((t.dataset.featureValues label).length : ℝ) *
      t.dataset.entropy label) p.tasks]
  simp only [hk, hmap]
  split
  · next hcond => exact iff_of_true rfl hcond
  · next hcond => exact iff_of_false (by simp) hcond

/-- C7, witness at the 1-and-4 dataset and a one-branch partition. -/
theorem defaultPrune_iff_witness :
    (rqSet.samples.all (fun sm => (sm rqLabel).isSome) = true) ∧
    (∀ t ∈ dpPart.tasks,
      t.dataset.samples.all (fun sm => (sm rqLabel).isSome) = true) ∧
    (defaultPrune rqSet dpPart rqLabel = true ↔
      (Real.log ((rqSet.count : ℝ) - 1) +
        Real.log ((3 : ℝ) ^ ((rqSet.observedValues rqLabel).toFinset.card) - 2)
        - ((rqSet.observedValues rqLabel).toFinset.card : ℝ) *
          rqSet.entropy rqLabel +
        (dpPart.tasks.map fun t =>
          ((t.dataset.observedValues rqLabel).toFinset.card : ℝ) *
            t.dataset.entropy rqLabel).sum) / (rqSet.count : ℝ) >
        dpPart.informationGain) :=
  ⟨by decide, by decide, defaultPrune_iff rqSet dpPart rqLabel (by decide)
    (by decide)⟩

theorem createLoop_spec (taken : List (String × Node)) (n : Node) :
    ∀ (fuel curr : Nat) (root : Node) (st₁ : NodeStoreM),
      createLoop taken n fuel curr = some (root, st₁) →
      st₁.nodes = (root.id, root) :: taken ∧ storeGet taken root.id = none := by
  intro fuel
  induction fuel with
  | zero => intro curr root st₁ h; simp [createLoop] at h
  | succ fuel ih =>
    intro curr root st₁ h
    simp only [createLoop] at h
    by_cases htaken : (storeGet taken (toString (curr + 1))).isSome
    · rw [if_pos htaken] at h
      exact ih _ _ _ h
    · rw [if_neg htaken] at h
      have h' := Option.some.inj h
      have hr := congrArg Prod.fst h'
      have hs := congrArg Prod.snd h'
      simp only at hr hs
      constructor
      · rw [← hs, ← hr]
      · rw [← hr]
        exact Option.not_isSome_iff_eq_none.mp htaken

theorem create_insert (st : NodeStoreM) (n root : Node) (st₁ : NodeStoreM)
    (h : st.create n = some (root, st₁)) :
    st₁.nodes = (root.id, root) :: st.nodes ∧ storeGet st.nodes root.id = none :=
  createLoop_spec st.nodes n _ _ root st₁ h

theorem delete_after_create (st : NodeStoreM) (root : Node) (st₁ : NodeStoreM)
    (hins : st₁.nodes = (root.id, root) :: st.nodes)
    (hfresh : storeGet st.nodes root.id = none) :
    (st₁.delete root).nodes = st.nodes := by
  simp only [NodeStoreM.delete, hins, List.filter_cons]
  simp only [bne_self_eq_false, Bool.false_eq_true, if_neg, reduceIte]
  refine List.filter_eq_self.mpr fun p hp => ?_
  have hfind : st.nodes.find? (fun p => p.1 == root.id) = none := by
    simpa [storeGet] using hfresh
  have := List.find?_eq_none.mp hfind p hp
  simpa [bne] using this

/-- C9: with the in-memory node store and any queue push: Seed creates the
root node; on push success the store contains the newly created root, the
queue is the result of pushing the root task, and the returned tree carries
that root id, the store contents and the label; on push failure Seed deletes
the created node, leaving the store exactly as before, and propagates the
push error. -/
theorem seed_spec {Q : Type} (label : Feature) (features : List Feature)
    (s : Dataset) (push : Q → Task → Except String Q) (q : Q)
    (st : NodeStoreM) (root : Node) (st₁ : NodeStoreM)
    (hc : st.create {} = some (root, st₁)) :
    (∀ q₁, push q ⟨root, s, features⟩ = .ok q₁ →
      seed label features s push q st =
        (.ok ⟨st₁.nodes, root.id, label⟩, st₁, q₁) ∧
      storeGet st₁.nodes root.id = some root) ∧
    (∀ e, push q ⟨root, s, features⟩ = .error e →
      seed label features s push q st = (.error e, st₁.delete root, q) ∧
      (st₁.delete root).nodes = st.nodes) := by
  obtain ⟨hins, hfresh⟩ := create_insert st {} root st₁ hc
  constructor
  · intro q₁ hpush
    constructor
    · simp only [seed, hc, hpush]
    · rw [hins]
      simp [storeGet, List.find?]
  · intro e hpush
    exact ⟨by simp only [seed, hc, hpush],
      delete_after_create st root st₁ hins hfresh⟩

/-- C9, witness: on the empty store, with a failing push the store is
restored and the error propagated, and with a succeeding push the tree,
store and queue are as stated. -/
theorem seed_spec_witness :
    ((⟨[], 0⟩ : NodeStoreM).create {} = some (seedRoot, seedSt1)) ∧
    seed rqLabel [] rqSet pushFailFn [] ⟨[], 0⟩ =
      (.error "boom", seedSt1.delete seedRoot, []) ∧
    (seedSt1.delete seedRoot).nodes = [] ∧
    seed rqLabel [] rqSet pushOkFn [] ⟨[], 0⟩ =
      (.ok ⟨seedSt1.nodes, seedRoot.id, rqLabel⟩, seedSt1,
        [⟨seedRoot, rqSet, []⟩]) ∧
    storeGet seedSt1.nodes seedRoot.id = some seedRoot := by
  have hc : (⟨[], 0⟩ : NodeStoreM).create {} = some (seedRoot, seedSt1) := by
    decide
  have hfail := (seed_spec rqLabel [] rqSet pushFailFn [] ⟨[], 0⟩ seedRoot
    seedSt1 hc).2 "boom" rfl
  have hok := (seed_spec rqLabel [] rqSet pushOkFn [] ⟨[], 0⟩ seedRoot
    seedSt1 hc).1 [⟨seedRoot, rqSet, []⟩] rfl
  exact ⟨hc, hfail.1, hfail.2, hok.1, hok.2⟩

/-- C4, counterexample: the in-memory queue's Push performs no duplicate
check: pushing a task whose id is already pending returns no error and the
task is now pending twice. -/
theorem push_duplicate_counterexample :
    (c4Queue.pendingList.map fun t => t.node.id) = ["1"] ∧
      c4Queue.pushE c4Task = .ok (c4Queue.pushT c4Task) ∧
      ((c4Queue.pushT c4Task).pendingList.map fun t => t.node.id) =
        ["1", "1"] :=
  ⟨by decide, rfl, by decide⟩

/-- C4, amended: the in-memory Push never fails and always appends the task
as pending; the key-value Push fails exactly when the task's data key
already exists (the id is pending, running, or was completed, since Complete
leaves the data key) or its key is already in the pending set, and otherwise
adds the data key and the pending set member. -/
theorem push_amended (qid : String) (enc : Task → Except String String)
    (rq : RedisQ) (t : Task) (data : String) (henc : enc t = .ok data) :
    ((∃ e, redisPush qid enc rq t = .error e) ↔
      ((rq.kv.find? (fun p =>
          p.1 == (qid ++ ":task:" ++ t.node.id) ++ ":data")).isSome = true ∨
        (qid ++ ":task:" ++ t.node.id) ∈ rq.pending)) ∧
    ((rq.kv.find? (fun p =>
        p.1 == (qid ++ ":task:" ++ t.node.id) ++ ":data")).isSome = false →
      (qid ++ ":task:" ++ t.node.id) ∉ rq.pending →
      redisPush qid enc rq t = .ok { rq with
          kv := ((qid ++ ":task:" ++ t.node.id) ++ ":data", data) :: rq.kv,
          pending := (qid ++ ":task:" ++ t.node.id) :: rq.pending }) ∧
    (∀ mq : MemQueue, mq.pushE t = .ok (mq.pushT t)) := by
  refine ⟨?_, ?_, fun mq => rfl⟩
  · simp only [redisPush, henc]
    by_cases h1 : (rq.kv.find? (fun p =>
        p.1 == (qid ++ ":task:" ++ t.node.id) ++ ":data")).isSome = true
    · rw [if_pos h1]
      exact iff_of_true ⟨_, rfl⟩ (Or.inl h1)
    · rw [if_neg h1]
      by_cases h2 : (qid ++ ":task:" ++ t.node.id) ∈ rq.pending
      · rw [if_pos h2]
        exact iff_of_true ⟨_, rfl⟩ (Or.inr h2)
      · rw [if_neg h2]
        refine iff_of_false ?_ ?_
        · rintro ⟨e, he⟩
          simp at he
        · rintro (hx | hx)
          · exact h1 hx
          · exact h2 hx
  · intro h1 h2
    simp only [redisPush, henc]
    rw [if_neg (by simp [h1]), if_neg h2]

/-- C4, witness for the amended theorem: pushing task 1 onto the empty
key-value queue succeeds and records it pending; the in-memory push never
errors. -/
theorem push_amended_witness :
    (encFn c4Task = .ok "data") ∧
    (((∃ e, redisPush "q" encFn {} c4Task = .error e) ↔
      (((RedisQ.kv {}).find? (fun p =>
          p.1 == ("q" ++ ":task:" ++ c4Task.node.id) ++ ":data")).isSome
          = true ∨
        ("q" ++ ":task:" ++ c4Task.node.id) ∈ RedisQ.pending {})) ∧
    (((RedisQ.kv {}).find? (fun p =>
        p.1 == ("q" ++ ":task:" ++ c4Task.node.id) ++ ":data")).isSome = false →
      ("q" ++ ":task:" ++ c4Task.node.id) ∉ RedisQ.pending {} →
      redisPush "q" encFn {} c4Task = .ok { ({} : RedisQ) with
          kv := (("q" ++ ":task:" ++ c4Task.node.id) ++ ":data", "data") ::
            RedisQ.kv {},
          pending := ("q" ++ ":task:" ++ c4Task.node.id) ::
            RedisQ.pending {} }) ∧
    (∀ mq : MemQueue, mq.pushE c4Task = .ok (mq.pushT c4Task))) :=
  ⟨rfl, push_amended "q" encFn {} c4Task "data" rfl⟩

/-- C10: for the in-memory queue, Drop with an id that is not running (one
never pulled, or already completed) returns no error and leaves the queue
unchanged; in particular the worker's deferred Drop executed after a
successful Complete of the same id is a no-op and does not re-enqueue the
task. -/
theorem drop_not_running (mq : MemQueue) (id : String)
    (h : (runningLookup mq.runningTasks id).isNone = true) :
    mq.drop id = .ok mq ∧
    (∀ mq₁ : MemQueue, mq.complete id = .ok mq₁ →
      mq₁.drop id = .ok mq₁) := by
  constructor
  · have h' : runningLookup mq.runningTasks id = none :=
      Option.isNone_iff_eq_none.mp h
    simp [MemQueue.drop, h']
  · intro mq₁ hc
    have hmq : { mq with runningTasks :=
        mq.runningTasks.filter (fun p => p.1 != id) } = mq₁ :=
      Except.ok.inj hc
    have hnone : runningLookup
        (mq.runningTasks.filter (fun p => p.1 != id)) id = none := by
      have hfind : (mq.runningTasks.filter (fun p => p.1 != id)).find?
          (fun p => p.1 == id) = none := by
        refine List.find?_eq_none.mpr fun p hp => ?_
        have := (List.mem_filter.mp hp).2
        simp only [bne] at this
        simp [Bool.not_eq_true] at this ⊢
        exact this
      simp [runningLookup, hfind]
    rw [← hmq]
    simp [MemQueue.drop, hnone]

/-- C10, witness: dropping id 1 while only id 2 is running is a no-op and
completing then dropping id 1 is too. -/
theorem drop_not_running_witness :
    (runningLookup c10Queue.runningTasks "1").isNone = true ∧
    (c10Queue.drop "1" = .ok c10Queue ∧
      (∀ mq₁ : MemQueue, c10Queue.complete "1" = .ok mq₁ →
        mq₁.drop "1" = .ok mq₁)) :=
  ⟨by decide, drop_not_running c10Queue "1" (by decide)⟩

theorem parseThreshold_encode (x : F) :
    parseThreshold (some (encodeThreshold x)) = .ok (roundF6 x) := by
  cases x <;> rfl

theorem decode_encode_criterion (features : List Feature) :
    ∀ c : Criterion,
      findFeature features c.feature.name = some c.feature →
      criterionKindOK c = true →
      decodeCriterion features (encodeCriterion c) = .ok (roundCriterion c) := by
  intro c hf hk
  cases c with
  | continuous f a b =>
    simp only [Criterion.feature] at hf
    simp only [encodeCriterion, decodeCriterion, hf]
    cases f with
    | continuous nm =>
      rw [parseThreshold_encode, parseThreshold_encode]
      rfl
    | discrete nm vs => simp [criterionKindOK] at hk
  | discrete f v =>
    simp only [Criterion.feature] at hf
    simp only [encodeCriterion, decodeCriterion, hf]
    cases f with
    | discrete nm vs => rfl
    | continuous nm => simp [criterionKindOK] at hk
  | undefined f =>
    simp only [Criterion.feature] at hf
    simp only [encodeCriterion, decodeCriterion, hf]
    rfl

theorem criterion_catalog_ok (features : List Feature) (c : Criterion)
    (h1 : criterionCatalogOK features c = true) :
    findFeature features c.feature.name = some c.feature ∧
    criterionKindOK c = true := by
  obtain ⟨hfind, hkind⟩ := Bool.and_eq_true_iff.mp h1
  exact ⟨by simpa using hfind, hkind⟩

theorem decode_encode_node (features : List Feature) (n : Node)
    (h : nodeCatalogOK features n = true) :
    decodeNode features (encodeNode n) = .ok (roundNode n) := by
  obtain ⟨h1, h2⟩ := Bool.and_eq_true_iff.mp h
  have hcrit : (match (encodeNode n).c with
      | none => Except.ok none
      | some jc => (decodeCriterion features jc).map some) =
      Except.ok (n.featureCriterion.map roundCriterion) := by
    cases hc : n.featureCriterion with
    | none => simp [encodeNode, hc]
    | some c =>
      rw [hc] at h1
      obtain ⟨hf, hk⟩ := criterion_catalog_ok features c h1
      simp [encodeNode, hc, decode_encode_criterion features c hf hk,
        Except.map]
  have hsf : (if (encodeNode n).f = "" then Except.ok none else
      match findFeature features (encodeNode n).f with
      | some nf => Except.ok (some nf)
      | none =>
        Except.error ("unmarshalling node " ++ (encodeNode n).id ++
          ": unknown feature " ++ (encodeNode n).f)) =
      Except.ok n.subtreeFeature := by
    cases hs : n.subtreeFeature with
    | none => simp [encodeNode, hs]
    | some f =>
      rw [hs] at h2
      obtain ⟨hne, hfind⟩ := Bool.and_eq_true_iff.mp h2
      have hne' : ¬ f.name = "" := by simpa using hne
      have hfind' : findFeature features f.name = some f := by simpa using hfind
      simp [encodeNode, hs, hne', hfind']
  simp only [decodeNode, hcrit, hsf]
  have hpred : ((encodeNode n).pred.map fun jp =>
      (⟨jp.probs, jp.w⟩ : Prediction)) = n.prediction := by
    cases hp : n.prediction with
    | none => simp [encodeNode, hp]
    | some p => simp [encodeNode, hp]
  simp only [encodeNode] at hpred ⊢
  rw [hpred]
  rfl

theorem foldDecode (features : List Feature) (ns : List Node) :
    ∀ st : List (String × Node), ns.all (nodeCatalogOK features) = true →
      ((ns.map encodeNode).foldlM (fun st jn =>
        match decodeNode features jn with
        | .error e => Except.error e
        | .ok n => Except.ok (storePut st n)) st : Except String _) =
      .ok (((ns.map roundNode).map (fun n => (n.id, n))).reverse ++ st) := by
  induction ns with
  | nil =>
    intro st h
    simp only [List.map_nil, List.foldlM_nil, List.map_nil, List.reverse_nil,
      List.nil_append]
    rfl
  | cons n rest ih =>
    intro st h
    obtain ⟨hn, hrest⟩ := by simpa using h
    simp only [List.map_cons, List.foldlM_cons,
      decode_encode_node features n hn, Bind.bind, Except.bind]
    rw [ih (storePut st (roundNode n)) (by simpa using hrest)]
    simp [storePut, List.reverse_cons, List.append_assoc]

theorem storeGet_of_mem (l : List (String × Node))
    (hnd : (l.map Prod.fst).Nodup) (k : String) (v : Node)
    (hmem : (k, v) ∈ l) : storeGet l k = some v := by
  induction l with
  | nil => simp at hmem
  | cons p rest ih =>
    rw [List.map_cons] at hnd
    obtain ⟨hp1, hrest⟩ := List.nodup_cons.mp hnd
    rcases List.mem_cons.mp hmem with rfl | hmem'
    · simp [storeGet, List.find?]
    · have hne : (p.1 == k) = false := by
        rw [beq_eq_false_iff_ne]
        intro hpk
        exact hp1 (hpk ▸ List.mem_map.mpr ⟨(k, v), hmem', rfl⟩)
      simp only [storeGet, List.find?, hne]
      exact ih hrest hmem'

/-- C3: reading back the JSON written for a tree with a fresh store yields
an equivalent tree: the same root id and label feature, and every traversed
node is stored back with the same parent id, subtree ids (order preserved),
prediction and subtree feature, and its criterion with the interval bounds
reformatted to six decimal places by the %f encoding. Hypotheses: the
traversal of the reachable nodes succeeds within the fuel, the root id is
non-empty, node ids are unique, and every feature used resolves to itself by
name in the catalog with the matching variant. -/
theorem read_write_roundtrip (t : Tree) (features : List Feature)
    (fuel : Nat) (ns : List Node)
    (hpre : preorder t fuel t.rootID = .ok ns)
    (hroot : ¬ t.rootID = "")
    (hlabel : findFeature features t.label.name = some t.label)
    (hok : ns.all (nodeCatalogOK features) = true)
    (hids : (ns.map fun n => n.id).Nodup) :
    writeTree t fuel = .ok ⟨t.rootID, t.label.name, ns.map encodeNode⟩ ∧
    ∃ t₁ : Tree,
      readTree ⟨t.rootID, t.label.name, ns.map encodeNode⟩ features
        ⟨[], "", t.label⟩ = .ok t₁ ∧
      t₁.rootID = t.rootID ∧ t₁.label = t.label ∧
      ∀ n ∈ ns, t₁.get n.id = some (roundNode n) := by
  constructor
  · simp [writeTree, hpre]
  · refine ⟨⟨((ns.map roundNode).map (fun m : Node => (m.id, m))).reverse ++ [],
      t.rootID, t.label⟩, ?_, rfl, rfl, ?_⟩
    · simp only [readTree, hlabel]
      rw [if_neg hroot, foldDecode features ns [] hok]
    · intro n hn
      have hid : (roundNode n).id = n.id := rfl
      have hmem : (n.id, roundNode n) ∈
          ((ns.map roundNode).map (fun m : Node => (m.id, m))).reverse ++ [] := by
        rw [List.append_nil, List.mem_reverse]
        exact List.mem_map.mpr ⟨roundNode n,
          List.mem_map.mpr ⟨n, hn, rfl⟩, by rw [hid]⟩
      have hnd : ((((ns.map roundNode).map (fun m : Node => (m.id, m))).reverse ++
          []).map Prod.fst).Nodup := by
        rw [List.append_nil, List.map_reverse, List.nodup_reverse,
          List.map_map, List.map_map]
        have hcomp : ((Prod.fst ∘ fun m : Node => (m.id, m)) ∘ roundNode) =
            fun n : Node => n.id := by
          funext m
          rfl
        rw [hcomp]
        exact hids
      exact storeGet_of_mem _ hnd n.id (roundNode n) hmem

/-- C3, witness: the three-node tree with a continuous criterion, an
undefined fallback and predictions round-trips. -/
theorem read_write_roundtrip_witness :
    (preorder rtTree 2 rtTree.rootID = .ok [rtRoot, rtChild2, rtChild3]) ∧
    (¬ rtTree.rootID = "") ∧
    (findFeature rtCatalog rtTree.label.name = some rtTree.label) ∧
    ([rtRoot, rtChild2, rtChild3].all (nodeCatalogOK rtCatalog) = true) ∧
    (([rtRoot, rtChild2, rtChild3].map fun n => n.id).Nodup) ∧
    (writeTree rtTree 2 =
      .ok ⟨rtTree.rootID, rtTree.label.name,
        [rtRoot, rtChild2, rtChild3].map encodeNode⟩ ∧
    ∃ t₁ : Tree,
      readTree ⟨rtTree.rootID, rtTree.label.name,
          [rtRoot, rtChild2, rtChild3].map encodeNode⟩ rtCatalog
        ⟨[], "", rtTree.label⟩ = .ok t₁ ∧
      t₁.rootID = rtTree.rootID ∧ t₁.label = rtTree.label ∧
      ∀ n ∈ [rtRoot, rtChild2, rtChild3], t₁.get n.id = some (roundNode n)) :=
  ⟨by rfl, by decide, by decide, by decide, by decide,
    read_write_roundtrip rtTree rtCatalog 2 [rtRoot, rtChild2, rtChild3]
      (by rfl) (by decide) (by decide) (by decide) (by decide)⟩

end Botanic
